import Mathlib

/-!
Verification of the wide-table factor engine (`quant_factor`): a shallow
embedding of `src/quant_factor/src/wide_table.rs` and
`src/quant_factor/src/factor.rs`.

A polars `DataFrame` is modelled as an ordered list of named columns; every
cell is an `Option ℚ` (`none` is the null sentinel, numeric values are
rationals standing in for `f64`).  Null propagation of the polars arithmetic
kernels is modelled by `optSub` / `optDiv` / `optMul`; `shift(p)` by
`shiftList`; `rolling_sum` with `min_periods` by `rollingSumVals` (nulls are
skipped, the non-null count is checked against `min_periods`, the window is
trailing).  `sort` ascending with nulls first is modelled by a stable
insertion sort on row indices (`argsort`) followed by a gather; polars'
default sort does not promise a tie order, the model fixes the stable one.
Rust's substring `contains` and `replace` (all occurrences, left to right,
non-overlapping) are modelled by `subCont` and `repAllAux` on character
lists.
-/

namespace QuantFactor

/-- Null-propagating subtraction, as in the polars arithmetic kernel. -/
def optSub : Option ℚ → Option ℚ → Option ℚ
  | some a, some b => some (a - b)
  | _, _ => none

/-- Null-propagating division.  (For a zero divisor the float engine yields a
non-null IEEE value; the rational model yields the junk value `some 0` —
likewise non-null, and irrelevant under the no-zero-divisor hypotheses.) -/
def optDiv : Option ℚ → Option ℚ → Option ℚ
  | some a, some b => some (a / b)
  | _, _ => none

/-- Null-propagating multiplication. -/
def optMul : Option ℚ → Option ℚ → Option ℚ
  | some a, some b => some (a * b)
  | _, _ => none

/-- One named column of a DataFrame. -/
structure Column where
  name : String
  values : List (Option ℚ)

/-- A DataFrame: an ordered list of named columns. -/
structure DataFrame where
  cols : List Column

/-- Column names, in order (polars `get_column_names`). -/
def DataFrame.names (df : DataFrame) : List String :=
  df.cols.map Column.name

/-- Whether a column of the given name exists (polars `df.column(n).is_ok()`). -/
def DataFrame.hasCol (df : DataFrame) (n : String) : Bool :=
  df.cols.any (fun c => c.name == n)

/-- Values of the first column with the given name, `[]` if absent. -/
def DataFrame.colVals (df : DataFrame) (n : String) : List (Option ℚ) :=
  match df.cols.find? (fun c => c.name == n) with
  | some c => c.values
  | none => []

/-- polars `with_columns` with a single expression result: replace the
same-named column in place when it exists, otherwise append. -/
def DataFrame.withColumn (df : DataFrame) (c : Column) : DataFrame :=
  if df.hasCol c.name then
    ⟨df.cols.map (fun c0 => if c0.name == c.name then c else c0)⟩
  else
    ⟨df.cols ++ [c]⟩

/-- Ascending comparison on cells, nulls first (polars default
`descending: false, nulls_last: false`). -/
def valLE : Option ℚ → Option ℚ → Bool
  | none, _ => true
  | some _, none => false
  | some a, some b => decide (a ≤ b)

/-- Insert an index into a sorted index list (ties keep the inserted,
originally earlier, index in front of later ones). -/
def insIdx (le : Nat → Nat → Bool) (x : Nat) : List Nat → List Nat
  | [] => [x]
  | y :: ys => if le x y then x :: y :: ys else y :: insIdx le x ys

/-- Insertion sort on index lists. -/
def sortIdx (le : Nat → Nat → Bool) : List Nat → List Nat
  | [] => []
  | x :: xs => insIdx le x (sortIdx le xs)

/-- Row permutation that sorts the given key column ascending. -/
def argsort (ts : List (Option ℚ)) : List Nat :=
  sortIdx (fun i j => valLE (ts.getD i none) (ts.getD j none)) (List.range ts.length)

/-- Reindex a column by a row permutation. -/
def Column.gather (c : Column) (idx : List Nat) : Column :=
  ⟨c.name, idx.map (fun i => c.values.getD i none)⟩

/-- polars `df.sort([tc], SortOptions::default())`: gather every column by the
permutation that sorts the key column ascending. -/
def DataFrame.sortByCol (df : DataFrame) (tc : String) : DataFrame :=
  ⟨df.cols.map (fun c => c.gather (argsort (df.colVals tc)))⟩

/-- The wide table: a DataFrame together with the name of its time column. -/
structure WideTable where
  df : DataFrame
  time_col : String

/-- Embedding of `WideTable::new`: fail unless a column named `time_col` exists, otherwise
store the DataFrame and the key verbatim. -/
def WideTable.new (df : DataFrame) (time_col : String) : Except String WideTable :=
  if df.hasCol time_col then Except.ok ⟨df, time_col⟩
  else Except.error ("时间列 '" ++ time_col ++ "' 不存在")

/-- polars `shift(p)` for `p ≥ 0`: prepend `p` nulls, keep the height. -/
def shiftList (p : Nat) (xs : List (Option ℚ)) : List (Option ℚ) :=
  (List.replicate p none ++ xs).take xs.length

/-- The percent-change expression `(cur - prev) / prev * 100` on cells. -/
def pctOp (cur prev : Option ℚ) : Option ℚ :=
  optMul (optDiv (optSub cur prev) prev) (some 100)

/-- One derived percent-change column: `(v - v.shift(p)) / v.shift(p) * 100`. -/
def pctChangeVals (p : Nat) (xs : List (Option ℚ)) : List (Option ℚ) :=
  List.zipWith pctOp xs (shiftList p xs)

/-- The derived-column name `format!("{}_pct_change_{}", cn, p)`. -/
def pctName (cn : String) (p : Nat) : String :=
  cn ++ "_pct_change_" ++ toString p

/-- The non-time column names of the sorted frame, in order (the loop's
`stock_cols`). -/
def WideTable.stockCols (t : WideTable) : List String :=
  (t.df.sortByCol t.time_col).names.filter (fun n => n != t.time_col)

/-- Embedding of `WideTable::pct_change`: sort by the time column, then for every non-time
column chain a `with_columns` computing the percent-change column. -/
def WideTable.pct_change (t : WideTable) (p : Nat) : WideTable :=
  let sorted := t.df.sortByCol t.time_col
  ⟨t.stockCols.foldl
      (fun acc cn => acc.withColumn ⟨pctName cn p, pctChangeVals p (acc.colVals cn)⟩)
      sorted,
    t.time_col⟩

/-- polars `rolling_sum` with a fixed trailing window (`center: false`):
at row `i` the window holds rows `i+1-w .. i`; nulls are skipped and the
non-null count is checked against `min_periods`. -/
def rollingSumVals (w minp : Nat) (xs : List (Option ℚ)) : List (Option ℚ) :=
  (List.range xs.length).map (fun i =>
    let vals := ((xs.take (i + 1)).drop (i + 1 - w)).filterMap id
    if minp ≤ vals.length then some vals.sum else none)

/-- Byte-wise list version of Rust `str::starts_with`. -/
def isPre : List Char → List Char → Bool
  | [], _ => true
  | _ :: _, [] => false
  | a :: s, b :: t => a == b && isPre s t

/-- Rust `str::contains pat`: some position of the haystack starts with `pat`. -/
def subCont (pat : List Char) : List Char → Bool
  | [] => pat.isEmpty
  | c :: s => isPre pat (c :: s) || subCont pat s

/-- Rust `str::replace(pat, rep)` on character lists: replace non-overlapping
occurrences left to right.  The counter skips the tail of a replaced match. -/
def repAllAux (pat rep : List Char) : Nat → List Char → List Char
  | _, [] => []
  | k + 1, _ :: s => repAllAux pat rep k s
  | 0, c :: s =>
    if isPre pat (c :: s) then rep ++ repAllAux pat rep (pat.length - 1) s
    else c :: repAllAux pat rep 0 s

/-- The literal pattern `"_pct_change_1"` matched by `momentum`. -/
def retPat : List Char := "_pct_change_1".data

/-- Rust `col.contains("_pct_change_1")`. -/
def strContainsRet (s : String) : Bool :=
  subCont retPat s.data

/-- Rust `ret_col.replace("_pct_change_1", "")`. -/
def stripRet (s : String) : String :=
  ⟨repAllAux retPat [] 0 s.data⟩

/-- The momentum-column name `format!("{}_momentum_{}", base, p)` with `base`
recovered by `replace`. -/
def momName (rc : String) (p : Nat) : String :=
  stripRet rc ++ "_momentum_" ++ toString p

/-- Embedding of `WideTable::momentum`: compute `pct_change(1)`, re-sort by the time
column, then for every non-time column whose name contains `"_pct_change_1"`
chain a `with_columns` computing the trailing rolling sum with
`window_size = p`, `min_periods = 1`, `center = false`. -/
def WideTable.momentum (t : WideTable) (p : Nat) : WideTable :=
  let ret := t.pct_change 1
  let sorted := ret.df.sortByCol t.time_col
  let ret_cols := sorted.names.filter (fun n => n != t.time_col && strContainsRet n)
  ⟨ret_cols.foldl
      (fun acc rc => acc.withColumn ⟨momName rc p, rollingSumVals p 1 (acc.colVals rc)⟩)
      sorted,
    t.time_col⟩

/-- Facade `FactorCalculator::calculate_returns`: logic-free delegation. -/
def FactorCalculator.calculate_returns (t : WideTable) (p : Nat) : WideTable :=
  t.pct_change p

/-- Facade `FactorCalculator::calculate_momentum`: logic-free delegation. -/
def FactorCalculator.calculate_momentum (t : WideTable) (p : Nat) : WideTable :=
  t.momentum p

/-- The concrete close series of the spec scenario: `[10.0, 10.2, 10.5, 10.3,
10.8]` as exact rationals. -/
def closeVals : List (Option ℚ) :=
  [some 10, some (51/5), some (21/2), some (103/10), some (54/5)]

/-- A five-row panel holding the scenario's time axis and close column. -/
def closeDF : DataFrame :=
  ⟨[⟨"date", [some 1, some 2, some 3, some 4, some 5]⟩, ⟨"close", closeVals⟩]⟩

/-- The scenario panel as a wide table keyed by `"date"`. -/
def closeTable : WideTable := ⟨closeDF, "date"⟩

/-! ### Lemmas about the stable insertion sort on indices -/

/-! ### Lemmas about the stable insertion sort on indices -/

theorem mem_insIdx {le : Nat → Nat → Bool} {x z : Nat} {l : List Nat} :
    z ∈ insIdx le x l ↔ z = x ∨ z ∈ l := by
  induction l with
  | nil => simp [insIdx]
  | cons y ys ih =>
    by_cases h : le x y
    · simp [insIdx, h]
    · simp [insIdx, h, ih]
      tauto

theorem insIdx_perm (le : Nat → Nat → Bool) (x : Nat) (l : List Nat) :
    List.Perm (insIdx le x l) (x :: l) := by
  induction l with
  | nil => exact List.Perm.refl _
  | cons y ys ih =>
    by_cases h : le x y
    · simp [insIdx, h]
    · simp only [insIdx, h, if_neg, Bool.false_eq_true, not_false_iff, ite_false]
      exact (ih.cons y).trans (List.Perm.swap x y ys)

theorem sortIdx_perm (le : Nat → Nat → Bool) (l : List Nat) :
    List.Perm (sortIdx le l) l := by
  induction l with
  | nil => exact List.Perm.refl _
  | cons x xs ih => exact (insIdx_perm le x (sortIdx le xs)).trans (ih.cons x)

theorem insIdx_pairwise {le : Nat → Nat → Bool}
    (htot : ∀ a b, le a b || le b a)
    (htrans : ∀ a b c, le a b = true → le b c = true → le a c = true)
    {x : Nat} {l : List Nat} (h : l.Pairwise (fun a b => le a b = true)) :
    (insIdx le x l).Pairwise (fun a b => le a b = true) := by
  induction l with
  | nil => simp [insIdx]
  | cons y ys ih =>
    rcases List.pairwise_cons.mp h with ⟨hy, hys⟩
    by_cases hxy : le x y
    · simp only [insIdx, hxy, ite_true]
      refine List.pairwise_cons.mpr ⟨?_, h⟩
      intro z hz
      rcases List.mem_cons.mp hz with rfl | hz
      · exact hxy
      · exact htrans x y z hxy (hy z hz)
    · simp only [insIdx, hxy, ite_false, Bool.false_eq_true]
      refine List.pairwise_cons.mpr ⟨?_, ih hys⟩
      intro z hz
      rcases mem_insIdx.mp hz with hzx | hz
      · rw [hzx]
        have := htot x y
        simp only [Bool.or_eq_true] at this
        rcases this with h' | h'
        · exact absurd h' hxy
        · exact h'
      · exact hy z hz

theorem sortIdx_pairwise {le : Nat → Nat → Bool}
    (htot : ∀ a b, le a b || le b a)
    (htrans : ∀ a b c, le a b = true → le b c = true → le a c = true)
    (l : List Nat) :
    (sortIdx le l).Pairwise (fun a b => le a b = true) := by
  induction l with
  | nil => simp [sortIdx]
  | cons x xs ih => exact insIdx_pairwise htot htrans ih

theorem sortIdx_of_pairwise {le : Nat → Nat → Bool} :
    ∀ {l : List Nat}, l.Pairwise (fun a b => le a b = true) → sortIdx le l = l
  | [], _ => rfl
  | x :: xs, h => by
    rcases List.pairwise_cons.mp h with ⟨hx, hxs⟩
    have ih := sortIdx_of_pairwise hxs
    simp only [sortIdx, ih]
    cases xs with
    | nil => rfl
    | cons y ys => simp [insIdx, hx y (List.mem_cons_self y ys)]

/-! ### Lemmas about `argsort`, `Column.gather` and `DataFrame.sortByCol` -/

theorem valLE_total (a b : Option ℚ) : valLE a b || valLE b a := by
  cases a <;> cases b <;> simp [valLE]
  exact le_total _ _

theorem valLE_trans (a b c : Option ℚ) (h₁ : valLE a b = true) (h₂ : valLE b c = true) :
    valLE a c = true := by
  cases a <;> cases b <;> cases c <;> simp_all [valLE]
  exact le_trans h₁ h₂

theorem argsort_perm (ts : List (Option ℚ)) :
    List.Perm (argsort ts) (List.range ts.length) :=
  sortIdx_perm _ _

theorem length_argsort (ts : List (Option ℚ)) :
    (argsort ts).length = ts.length :=
  (argsort_perm ts).length_eq.trans (List.length_range _)

theorem mem_argsort {ts : List (Option ℚ)} {i : Nat} (h : i ∈ argsort ts) :
    i < ts.length :=
  List.mem_range.mp ((argsort_perm ts).mem_iff.mp h)

theorem argsort_pairwise (ts : List (Option ℚ)) :
    (argsort ts).Pairwise (fun i j => valLE (ts.getD i none) (ts.getD j none) = true) :=
  @sortIdx_pairwise (fun i j => valLE (ts.getD i none) (ts.getD j none))
    (fun _ _ => valLE_total _ _) (fun _ _ _ h₁ h₂ => valLE_trans _ _ _ h₁ h₂)
    (List.range ts.length)

theorem argsort_of_pairwise {ts : List (Option ℚ)}
    (h : ts.Pairwise (fun a b => valLE a b = true)) :
    argsort ts = List.range ts.length := by
  apply sortIdx_of_pairwise
  rw [List.pairwise_iff_getElem] at h ⊢
  intro i j hi hj hij
  rw [List.length_range] at hi hj
  simp only [List.getElem_range]
  rw [List.getD_eq_getElem _ _ hi, List.getD_eq_getElem _ _ hj]
  exact h i j hi hj hij

theorem map_getD_range (l : List (Option ℚ)) :
    (List.range l.length).map (fun i => l.getD i none) = l := by
  apply List.ext_getElem
  · simp
  · intro i h₁ h₂
    simp only [List.getElem_map, List.getElem_range]
    try exact List.getD_eq_getElem _ _ h₂

theorem names_sortByCol (df : DataFrame) (tc : String) :
    (df.sortByCol tc).names = df.names := by
  simp [DataFrame.names, DataFrame.sortByCol, Column.gather, List.map_map, Function.comp]

theorem hasCol_iff_mem_names {df : DataFrame} {n : String} :
    df.hasCol n = true ↔ n ∈ df.names := by
  simp only [DataFrame.hasCol, List.any_eq_true, beq_iff_eq, DataFrame.names, List.mem_map]

theorem hasCol_iff_find?_isSome {df : DataFrame} {n : String} :
    df.hasCol n = true ↔ (df.cols.find? (fun c => c.name == n)).isSome := by
  simp [DataFrame.hasCol, List.find?_isSome, List.any_eq_true]

theorem find?_sortByCol (df : DataFrame) (tc n : String) :
    (df.sortByCol tc).cols.find? (fun c => c.name == n)
      = (df.cols.find? (fun c => c.name == n)).map
          (fun c => c.gather (argsort (df.colVals tc))) := by
  simp only [DataFrame.sortByCol]
  rw [List.find?_map]
  rfl

theorem colVals_sortByCol_of_hasCol {df : DataFrame} {n : String} (tc : String)
    (h : df.hasCol n = true) :
    (df.sortByCol tc).colVals n
      = (argsort (df.colVals tc)).map (fun i => (df.colVals n).getD i none) := by
  rw [hasCol_iff_find?_isSome] at h
  rcases Option.isSome_iff_exists.mp h with ⟨c, hc⟩
  simp [DataFrame.colVals, find?_sortByCol, hc, Column.gather]

theorem length_colVals_sortByCol {df : DataFrame} {n : String} (tc : String)
    (h : df.hasCol n = true) :
    ((df.sortByCol tc).colVals n).length = (df.colVals tc).length := by
  rw [colVals_sortByCol_of_hasCol tc h, List.length_map, length_argsort]

theorem colVals_sortByCol_key_pairwise (df : DataFrame) (tc : String)
    (h : df.hasCol tc = true) :
    ((df.sortByCol tc).colVals tc).Pairwise (fun a b => valLE a b = true) := by
  rw [colVals_sortByCol_of_hasCol tc h]
  exact (argsort_pairwise (df.colVals tc)).map _ (fun a b hab => hab)

theorem sortByCol_eq_self (df : DataFrame) (tc : String)
    (hkey : (df.colVals tc).Pairwise (fun a b => valLE a b = true))
    (hlens : ∀ c ∈ df.cols, c.values.length = (df.colVals tc).length) :
    df.sortByCol tc = df := by
  show DataFrame.mk _ = df
  rw [argsort_of_pairwise hkey]
  have : df.cols.map (fun c => c.gather (List.range (df.colVals tc).length)) = df.cols := by
    apply List.map_congr_left ?_ |>.trans (List.map_id df.cols)
    intro c hc
    show c.gather (List.range (df.colVals tc).length) = c
    rw [← hlens c hc]
    show Column.mk c.name ((List.range c.values.length).map (fun i => c.values.getD i none)) = c
    rw [map_getD_range]
  rw [this]

theorem sortByCol_idem (df : DataFrame) (tc : String) (h : df.hasCol tc = true) :
    (df.sortByCol tc).sortByCol tc = df.sortByCol tc := by
  apply sortByCol_eq_self
  · exact colVals_sortByCol_key_pairwise df tc h
  · intro c hc
    simp only [DataFrame.sortByCol, List.mem_map] at hc
    rcases hc with ⟨c0, _, rfl⟩
    rw [length_colVals_sortByCol tc h]
    simp [Column.gather, length_argsort]


/-! ### Lemmas about `withColumn` and the `with_columns` fold -/

theorem withColumn_of_not_hasCol {df : DataFrame} {c : Column}
    (h : df.hasCol c.name = false) :
    df.withColumn c = ⟨df.cols ++ [c]⟩ := by
  simp [DataFrame.withColumn, h]

theorem hasCol_mk_append (cols₁ cols₂ : List Column) (n : String) :
    (DataFrame.mk (cols₁ ++ cols₂)).hasCol n
      = ((DataFrame.mk cols₁).hasCol n || (DataFrame.mk cols₂).hasCol n) := by
  simp [DataFrame.hasCol]

theorem colVals_mk_append_left {cols₁ cols₂ : List Column} {n : String}
    (h : (DataFrame.mk cols₁).hasCol n = true) :
    (DataFrame.mk (cols₁ ++ cols₂)).colVals n = (DataFrame.mk cols₁).colVals n := by
  rw [hasCol_iff_find?_isSome] at h
  simp only [DataFrame.colVals, List.find?_append]
  rcases Option.isSome_iff_exists.mp h with ⟨c, hc⟩
  simp [hc]

theorem colVals_mk_append_right {cols₁ cols₂ : List Column} {n : String}
    (h : (DataFrame.mk cols₁).hasCol n = false) :
    (DataFrame.mk (cols₁ ++ cols₂)).colVals n = (DataFrame.mk cols₂).colVals n := by
  have h' : (cols₁.find? (fun c => c.name == n)) = none := by
    rcases hfind : cols₁.find? (fun c => c.name == n) with _ | c
    · exact hfind
    · exfalso
      have : (DataFrame.mk cols₁).hasCol n = true := by
        rw [hasCol_iff_find?_isSome]
        show (cols₁.find? (fun c => c.name == n)).isSome
        rw [hfind]; rfl
      rw [this] at h; cases h
  simp only [DataFrame.colVals, List.find?_append, h', Option.none_or]

theorem foldl_withColumn (nm : String → String) (F : List (Option ℚ) → List (Option ℚ)) :
    ∀ (l : List String) (df : DataFrame),
      (∀ cn ∈ l, df.hasCol cn = true) →
      (∀ cn ∈ l, df.hasCol (nm cn) = false) →
      l.Nodup →
      (∀ cn₁ ∈ l, ∀ cn₂ ∈ l, nm cn₁ = nm cn₂ → cn₁ = cn₂) →
      l.foldl (fun acc cn => acc.withColumn ⟨nm cn, F (acc.colVals cn)⟩) df
        = ⟨df.cols ++ l.map (fun cn => ⟨nm cn, F (df.colVals cn)⟩)⟩
  | [], df, _, _, _, _ => by simp
  | a :: l, df, hpres, hfresh, hnodup, hinj => by
    have ha : df.hasCol a = true := hpres a (List.mem_cons_self a l)
    have hfa : df.hasCol (nm a) = false := hfresh a (List.mem_cons_self a l)
    have hnd := List.nodup_cons.mp hnodup
    have hstep :
        df.withColumn ⟨nm a, F (df.colVals a)⟩
          = DataFrame.mk (df.cols ++ [⟨nm a, F (df.colVals a)⟩]) :=
      withColumn_of_not_hasCol hfa
    have hpres' : ∀ cn ∈ l,
        (DataFrame.mk (df.cols ++ [⟨nm a, F (df.colVals a)⟩])).hasCol cn = true := by
      intro cn hcn
      rw [hasCol_mk_append]
      have : (DataFrame.mk df.cols).hasCol cn = true := hpres cn (List.mem_cons_of_mem a hcn)
      simp [this]
    have hfresh' : ∀ cn ∈ l,
        (DataFrame.mk (df.cols ++ [⟨nm a, F (df.colVals a)⟩])).hasCol (nm cn) = false := by
      intro cn hcn
      rw [hasCol_mk_append]
      have h₁ : (DataFrame.mk df.cols).hasCol (nm cn) = false :=
        hfresh cn (List.mem_cons_of_mem a hcn)
      have h₂ : (DataFrame.mk [(⟨nm a, F (df.colVals a)⟩ : Column)]).hasCol (nm cn) = false := by
        have hne : nm a ≠ nm cn := by
          intro he
          have : a = cn :=
            hinj a (List.mem_cons_self a l) cn (List.mem_cons_of_mem a hcn) he
          exact hnd.1 (this ▸ hcn)
        simp [DataFrame.hasCol, hne]
      rw [h₁, h₂]
      rfl
    have hvals : ∀ cn ∈ l,
        (DataFrame.mk (df.cols ++ [⟨nm a, F (df.colVals a)⟩])).colVals cn = df.colVals cn := by
      intro cn hcn
      exact colVals_mk_append_left (hpres cn (List.mem_cons_of_mem a hcn))
    have hinj' : ∀ cn₁ ∈ l, ∀ cn₂ ∈ l, nm cn₁ = nm cn₂ → cn₁ = cn₂ := by
      intro cn₁ h₁ cn₂ h₂ h
      exact hinj cn₁ (List.mem_cons_of_mem a h₁) cn₂ (List.mem_cons_of_mem a h₂) h
    have ih := foldl_withColumn nm F l
      (DataFrame.mk (df.cols ++ [⟨nm a, F (df.colVals a)⟩])) hpres' hfresh' hnd.2 hinj'
    simp only [List.foldl_cons, hstep, ih]
    congr 1
    rw [List.append_assoc]
    congr 1
    rw [List.singleton_append]
    congr 1
    apply List.map_congr_left
    intro cn hcn
    rw [hvals cn hcn]

/-! ### Structure of `pct_change` -/

theorem stockCols_eq (t : WideTable) :
    t.stockCols = t.df.names.filter (fun n => n != t.time_col) := by
  rw [WideTable.stockCols, names_sortByCol]

theorem mem_stockCols {t : WideTable} {cn : String} (h : cn ∈ t.stockCols) :
    cn ∈ t.df.names ∧ cn ≠ t.time_col := by
  rw [stockCols_eq] at h
  rcases List.mem_filter.mp h with ⟨h₁, h₂⟩
  exact ⟨h₁, by simpa using h₂⟩

theorem stockCols_nodup {t : WideTable} (h : t.df.names.Nodup) : t.stockCols.Nodup := by
  rw [stockCols_eq]
  exact h.filter _

theorem string_append_cancel {a b s : String} (h : a ++ s = b ++ s) : a = b := by
  have hd : a.data ++ s.data = b.data ++ s.data := by
    have := congrArg String.data h
    simpa [String.data_append] using this
  rcases a with ⟨da⟩
  rcases b with ⟨db⟩
  simp only at hd
  exact congrArg String.mk (List.append_cancel_right hd)

theorem pctName_inj {cn₁ cn₂ : String} {p : Nat} (h : pctName cn₁ p = pctName cn₂ p) :
    cn₁ = cn₂ := by
  rw [pctName, pctName] at h
  exact string_append_cancel (string_append_cancel h)

theorem pct_change_df (t : WideTable) (p : Nat)
    (hnd : t.df.names.Nodup)
    (hfresh : ∀ cn ∈ t.stockCols, pctName cn p ∉ t.df.names) :
    (t.pct_change p).df
      = ⟨(t.df.sortByCol t.time_col).cols
          ++ t.stockCols.map
              (fun cn => ⟨pctName cn p,
                pctChangeVals p ((t.df.sortByCol t.time_col).colVals cn)⟩)⟩ := by
  apply foldl_withColumn (fun cn => pctName cn p) (pctChangeVals p) t.stockCols
    (t.df.sortByCol t.time_col)
  · intro cn hcn
    rw [hasCol_iff_mem_names, names_sortByCol]
    exact (mem_stockCols hcn).1
  · intro cn hcn
    have : ¬ ((t.df.sortByCol t.time_col).hasCol (pctName cn p) = true) := by
      rw [hasCol_iff_mem_names, names_sortByCol]
      exact hfresh cn hcn
    exact Bool.not_eq_true _ ▸ (Bool.eq_false_iff.mpr (fun hc => this hc))
  · exact stockCols_nodup hnd
  · intro cn₁ _ cn₂ _ h
    exact pctName_inj h

theorem pct_change_time_col (t : WideTable) (p : Nat) :
    (t.pct_change p).time_col = t.time_col := rfl


theorem mk_cols_eta (df : DataFrame) : DataFrame.mk df.cols = df := rfl

theorem names_mk_append (cols₁ cols₂ : List Column) :
    (DataFrame.mk (cols₁ ++ cols₂)).names
      = (DataFrame.mk cols₁).names ++ (DataFrame.mk cols₂).names := by
  simp [DataFrame.names]

theorem pct_change_names (t : WideTable) (p : Nat)
    (hnd : t.df.names.Nodup)
    (hfresh : ∀ cn ∈ t.stockCols, pctName cn p ∉ t.df.names) :
    (t.pct_change p).df.names
      = t.df.names ++ t.stockCols.map (fun cn => pctName cn p) := by
  rw [pct_change_df t p hnd hfresh, names_mk_append, mk_cols_eta, names_sortByCol]
  congr 1
  simp [DataFrame.names, List.map_map, Function.comp]

theorem pct_change_colVals_orig (t : WideTable) (p : Nat)
    (hnd : t.df.names.Nodup)
    (hfresh : ∀ cn ∈ t.stockCols, pctName cn p ∉ t.df.names)
    {cn : String} (hmem : cn ∈ t.df.names) :
    (t.pct_change p).df.colVals cn = (t.df.sortByCol t.time_col).colVals cn := by
  rw [pct_change_df t p hnd hfresh]
  have h : (DataFrame.mk (t.df.sortByCol t.time_col).cols).hasCol cn = true := by
    show (t.df.sortByCol t.time_col).hasCol cn = true
    rw [hasCol_iff_mem_names, names_sortByCol]
    exact hmem
  exact colVals_mk_append_left h

theorem colVals_mk_map_derived (G : String → List (Option ℚ)) (nm : String → String) :
    ∀ (l : List String) (a : String), a ∈ l → l.Nodup →
      (∀ cn₁ ∈ l, ∀ cn₂ ∈ l, nm cn₁ = nm cn₂ → cn₁ = cn₂) →
      (DataFrame.mk (l.map (fun cn => ⟨nm cn, G cn⟩))).colVals (nm a) = G a
  | [], a, ha, _, _ => absurd ha (List.not_mem_nil a)
  | b :: l, a, ha, hnd, hinj => by
    have hnd' := List.nodup_cons.mp hnd
    rcases List.mem_cons.mp ha with rfl | ha'
    · simp [DataFrame.colVals, List.find?_cons_of_pos]
    · have hab : b ≠ a := by
        intro he
        exact hnd'.1 (he ▸ ha')
      have hne : ¬ (((⟨nm b, G b⟩ : Column).name == nm a) = true) := by
        simp only [beq_iff_eq]
        intro he
        exact hab (hinj b (List.mem_cons_self b l) a ha he)
      have ih := colVals_mk_map_derived G nm l a ha' hnd'.2
        (fun cn₁ h₁ cn₂ h₂ h => hinj cn₁ (List.mem_cons_of_mem b h₁)
          cn₂ (List.mem_cons_of_mem b h₂) h)
      have hfind :
          List.find? (fun c => c.name == nm a)
              ((⟨nm b, G b⟩ : Column) :: l.map (fun cn => ⟨nm cn, G cn⟩))
            = List.find? (fun c => c.name == nm a) (l.map (fun cn => ⟨nm cn, G cn⟩)) :=
        List.find?_cons_of_neg _ hne
      simp only [DataFrame.colVals] at ih ⊢
      simp only [List.map_cons]
      rw [hfind]
      exact ih

theorem pct_change_colVals_derived (t : WideTable) (p : Nat)
    (hnd : t.df.names.Nodup)
    (hfresh : ∀ cn ∈ t.stockCols, pctName cn p ∉ t.df.names)
    {cn : String} (hmem : cn ∈ t.stockCols) :
    (t.pct_change p).df.colVals (pctName cn p)
      = pctChangeVals p ((t.df.sortByCol t.time_col).colVals cn) := by
  rw [pct_change_df t p hnd hfresh]
  have h₁ : (DataFrame.mk (t.df.sortByCol t.time_col).cols).hasCol (pctName cn p) = false := by
    have : ¬ ((t.df.sortByCol t.time_col).hasCol (pctName cn p) = true) := by
      rw [hasCol_iff_mem_names, names_sortByCol]
      exact hfresh cn hmem
    exact Bool.eq_false_iff.mpr (fun hc => this hc)
  rw [colVals_mk_append_right h₁]
  exact colVals_mk_map_derived _ _ t.stockCols cn hmem (stockCols_nodup hnd)
    (fun cn₁ _ cn₂ _ h => pctName_inj h)

/-! ### Pointwise description of `pctChangeVals` and `rollingSumVals` -/

theorem length_shiftList (p : Nat) (xs : List (Option ℚ)) :
    (shiftList p xs).length = xs.length := by
  simp [shiftList]

theorem length_pctChangeVals (p : Nat) (xs : List (Option ℚ)) :
    (pctChangeVals p xs).length = xs.length := by
  simp [pctChangeVals, length_shiftList]

theorem getD_shiftList (p : Nat) (xs : List (Option ℚ)) (i : Nat) (h : i < xs.length) :
    (shiftList p xs).getD i none = if i < p then none else xs.getD (i - p) none := by
  have hlen : i < (shiftList p xs).length := by rw [length_shiftList]; exact h
  rw [List.getD_eq_getElem _ _ hlen]
  simp only [shiftList]
  rw [List.getElem_take]
  by_cases hip : i < p
  · rw [List.getElem_append_left (by simpa using hip)]
    simp [hip]
  · have hge : p ≤ i := Nat.le_of_not_lt hip
    have hsub : i - p < xs.length := lt_of_le_of_lt (Nat.sub_le i p) h
    rw [List.getElem_append_right (by simpa using hge)]
    simp only [hip, if_false, List.length_replicate]
    rw [List.getD_eq_getElem _ _ hsub]

theorem getD_pctChangeVals (p : Nat) (xs : List (Option ℚ)) (i : Nat) (h : i < xs.length) :
    (pctChangeVals p xs).getD i none
      = pctOp (xs.getD i none) (if i < p then none else xs.getD (i - p) none) := by
  have hlen : i < (pctChangeVals p xs).length := by rw [length_pctChangeVals]; exact h
  rw [List.getD_eq_getElem _ _ hlen]
  simp only [pctChangeVals]
  rw [List.getElem_zipWith]
  rw [List.getD_eq_getElem _ _ h]
  congr 1
  rw [← getD_shiftList p xs i h]
  have hs : i < (shiftList p xs).length := by rw [length_shiftList]; exact h
  rw [List.getD_eq_getElem _ _ hs]

theorem pctOp_none_right (x : Option ℚ) : pctOp x none = none := by
  cases x <;> rfl

theorem pctOp_some_some (a b : ℚ) :
    pctOp (some a) (some b) = some ((a - b) / b * 100) := rfl

theorem length_rollingSumVals (w minp : Nat) (xs : List (Option ℚ)) :
    (rollingSumVals w minp xs).length = xs.length := by
  simp [rollingSumVals]

theorem getD_rollingSumVals (w minp : Nat) (xs : List (Option ℚ)) (i : Nat)
    (h : i < xs.length) :
    (rollingSumVals w minp xs).getD i none
      = (if minp ≤ (((xs.take (i + 1)).drop (i + 1 - w)).filterMap id).length
          then some ((((xs.take (i + 1)).drop (i + 1 - w)).filterMap id).sum)
          else none) := by
  have hlen : i < (rollingSumVals w minp xs).length := by
    rw [length_rollingSumVals]; exact h
  rw [List.getD_eq_getElem _ _ hlen]
  simp only [rollingSumVals]
  rw [List.getElem_map]
  simp [List.getElem_range]

theorem window_one (xs : List (Option ℚ)) (i : Nat) (h : i < xs.length) :
    (xs.take (i + 1)).drop (i + 1 - 1) = [xs[i]] := by
  simp only [Nat.add_sub_cancel]
  rw [List.drop_take]
  rw [List.drop_eq_getElem_cons h]
  simp only [Nat.add_sub_cancel_left]
  rfl

theorem rollingSumVals_one_one (xs : List (Option ℚ)) : rollingSumVals 1 1 xs = xs := by
  apply List.ext_getElem
  · exact length_rollingSumVals 1 1 xs
  · intro i h₁ h₂
    have := getD_rollingSumVals 1 1 xs i h₂
    rw [List.getD_eq_getElem _ _ h₁] at this
    rw [this, window_one xs i h₂]
    rcases hx : xs[i] with _ | a
    · simp
    · simp

/-! ### String lemmas: the `"_pct_change_1"` pattern, `contains`, `replace` -/

theorem isPre_self : ∀ (l : List Char), isPre l l = true
  | [] => rfl
  | a :: l => by simp [isPre, isPre_self l]

theorem subCont_append_self (pat s : List Char) : subCont pat (s ++ pat) = true := by
  induction s with
  | nil =>
    simp only [List.nil_append]
    cases pat with
    | nil => rfl
    | cons c t => simp [subCont, isPre_self]
  | cons c s ih => simp [subCont, ih]

theorem isPre_append_of_le : ∀ (pat x y : List Char), pat.length ≤ x.length →
    isPre pat (x ++ y) = isPre pat x
  | [], _, _, _ => rfl
  | a :: p, [], _, h => by simp at h
  | a :: p, b :: x, y, h => by
    simp only [List.cons_append, isPre, List.append_eq]
    rw [isPre_append_of_le p x y (Nat.succ_le_succ_iff.mp (by simpa using h))]

theorem eq_take_of_isPre_append : ∀ (pat x y : List Char), isPre pat (x ++ y) = true →
    x.length ≤ pat.length → x = pat.take x.length
  | _, [], _, _, _ => rfl
  | [], b :: x, _, _, hlen => by simp at hlen
  | a :: p, b :: x, y, h, hlen => by
    simp only [List.cons_append, isPre, List.append_eq, Bool.and_eq_true, beq_iff_eq] at h
    have htail := eq_take_of_isPre_append p x y h.2
      (Nat.succ_le_succ_iff.mp (by simpa using hlen))
    rw [List.length_cons, List.take_succ_cons, ← h.1, ← htail]

theorem retPat_no_border :
    ∀ k, k < retPat.length → 1 ≤ k → isPre retPat (retPat.take k ++ retPat) = false := by
  decide

theorem isPre_retPat_cons_append {c : Char} {s : List Char}
    (h₁ : isPre retPat (c :: s) = false) :
    isPre retPat ((c :: s) ++ retPat) = false := by
  rcases Nat.lt_or_ge (c :: s).length retPat.length with hlt | hge
  · cases hb : isPre retPat ((c :: s) ++ retPat) with
    | false => rfl
    | true =>
      exfalso
      have hx : (c :: s) = retPat.take (c :: s).length :=
        eq_take_of_isPre_append retPat (c :: s) retPat hb (Nat.le_of_lt hlt)
      have hfalse := retPat_no_border (c :: s).length hlt (by simp)
      rw [← hx, hb] at hfalse
      cases hfalse
  · rw [isPre_append_of_le _ _ _ hge]
    exact h₁

theorem repAll_append_self : ∀ (s : List Char), subCont retPat s = false →
    repAllAux retPat [] 0 (s ++ retPat) = s
  | [], _ => by rfl
  | c :: s, h => by
    have hcomp : isPre retPat (c :: s) = false ∧ subCont retPat s = false := by
      simpa [subCont, Bool.or_eq_false_iff] using h
    have hpre := isPre_retPat_cons_append hcomp.1
    simp only [List.cons_append] at hpre
    have ih := repAll_append_self s hcomp.2
    show repAllAux retPat [] 0 (c :: (s ++ retPat)) = c :: s
    simp only [repAllAux, hpre, ite_false, Bool.false_eq_true]
    exact congrArg (c :: ·) ih

theorem data_pctName_one (cn : String) : (pctName cn 1).data = cn.data ++ retPat := by
  show (cn ++ "_pct_change_" ++ toString 1).data = cn.data ++ retPat
  rw [String.data_append, String.data_append, List.append_assoc]
  rfl

theorem strContainsRet_pctName_one (cn : String) : strContainsRet (pctName cn 1) = true := by
  rw [strContainsRet, data_pctName_one]
  exact subCont_append_self retPat cn.data

theorem stripRet_pctName_one {cn : String} (h : strContainsRet cn = false) :
    stripRet (pctName cn 1) = cn := by
  rw [stripRet]
  rw [show (pctName cn 1).data = cn.data ++ retPat from data_pctName_one cn]
  rw [repAll_append_self cn.data h]

theorem momName_pctName_one {cn : String} (h : strContainsRet cn = false) (p : Nat) :
    momName (pctName cn 1) p = cn ++ "_momentum_" ++ toString p := by
  rw [momName, stripRet_pctName_one h]

theorem ne_of_strContainsRet {x y : String}
    (hx : strContainsRet x = true) (hy : strContainsRet y = false) : x ≠ y := by
  intro he
  rw [he, hy] at hx
  cases hx

/-! ### Structure of `momentum` -/

theorem cols_mk (cols : List Column) : (DataFrame.mk cols).cols = cols := rfl

theorem hfresh_pct_of_nopat (t : WideTable)
    (hnop : ∀ n ∈ t.df.names, strContainsRet n = false) :
    ∀ cn ∈ t.stockCols, pctName cn 1 ∉ t.df.names := by
  intro cn _ hmem
  have h := hnop _ hmem
  rw [strContainsRet_pctName_one cn] at h
  cases h

theorem momentum_resort (t : WideTable)
    (hnd : t.df.names.Nodup)
    (htc : t.time_col ∈ t.df.names)
    (hnop : ∀ n ∈ t.df.names, strContainsRet n = false) :
    (t.pct_change 1).df.sortByCol t.time_col = (t.pct_change 1).df := by
  have hfresh := hfresh_pct_of_nopat t hnop
  have htcb : t.df.hasCol t.time_col = true := hasCol_iff_mem_names.mpr htc
  apply sortByCol_eq_self
  · rw [pct_change_colVals_orig t 1 hnd hfresh htc]
    exact colVals_sortByCol_key_pairwise t.df t.time_col htcb
  · intro c hc
    rw [pct_change_colVals_orig t 1 hnd hfresh htc]
    rw [length_colVals_sortByCol t.time_col htcb]
    rw [pct_change_df t 1 hnd hfresh, cols_mk] at hc
    rcases List.mem_append.mp hc with hc | hc
    · simp only [DataFrame.sortByCol, cols_mk, List.mem_map] at hc
      rcases hc with ⟨c₀, _, rfl⟩
      simp [Column.gather, length_argsort]
    · rcases List.mem_map.mp hc with ⟨cn, hcn, rfl⟩
      have hcnb : t.df.hasCol cn = true := hasCol_iff_mem_names.mpr (mem_stockCols hcn).1
      show (pctChangeVals 1 ((t.df.sortByCol t.time_col).colVals cn)).length
          = (t.df.colVals t.time_col).length
      rw [length_pctChangeVals]
      exact length_colVals_sortByCol t.time_col hcnb

theorem momentum_ret_cols (t : WideTable)
    (hnd : t.df.names.Nodup)
    (htc : t.time_col ∈ t.df.names)
    (hnop : ∀ n ∈ t.df.names, strContainsRet n = false) :
    ((t.pct_change 1).df.sortByCol t.time_col).names.filter
        (fun n => n != t.time_col && strContainsRet n)
      = t.stockCols.map (fun cn => pctName cn 1) := by
  rw [momentum_resort t hnd htc hnop]
  rw [pct_change_names t 1 hnd (hfresh_pct_of_nopat t hnop)]
  rw [List.filter_append]
  have h₁ : t.df.names.filter (fun n => n != t.time_col && strContainsRet n) = [] := by
    rw [List.filter_eq_nil_iff]
    intro n hn
    simp [hnop n hn]
  have h₂ : (t.stockCols.map (fun cn => pctName cn 1)).filter
        (fun n => n != t.time_col && strContainsRet n)
      = t.stockCols.map (fun cn => pctName cn 1) := by
    rw [List.filter_eq_self]
    intro n hn
    rcases List.mem_map.mp hn with ⟨cn, hcn, rfl⟩
    have hne : pctName cn 1 ≠ t.time_col :=
      ne_of_strContainsRet (strContainsRet_pctName_one cn) (hnop _ htc)
    simp [strContainsRet_pctName_one, hne]
  rw [h₁, h₂, List.nil_append]

theorem momName_stock_inj {t : WideTable} {p : Nat}
    (hnop : ∀ n ∈ t.df.names, strContainsRet n = false)
    {cn₁ cn₂ : String} (h₁ : cn₁ ∈ t.stockCols) (h₂ : cn₂ ∈ t.stockCols)
    (h : momName (pctName cn₁ 1) p = momName (pctName cn₂ 1) p) :
    cn₁ = cn₂ := by
  rw [momName_pctName_one (hnop cn₁ (mem_stockCols h₁).1) p,
    momName_pctName_one (hnop cn₂ (mem_stockCols h₂).1) p] at h
  exact string_append_cancel (string_append_cancel h)

theorem momentum_mom_not_mem {t : WideTable} {p : Nat}
    (hnd : t.df.names.Nodup)
    (hnop : ∀ n ∈ t.df.names, strContainsRet n = false)
    (hfm : ∀ cn ∈ t.stockCols, (cn ++ "_momentum_" ++ toString p) ∉ t.df.names)
    (hnopm : ∀ cn ∈ t.stockCols, strContainsRet (cn ++ "_momentum_" ++ toString p) = false)
    {cn : String} (hcn : cn ∈ t.stockCols) :
    (cn ++ "_momentum_" ++ toString p) ∉ (t.pct_change 1).df.names := by
  rw [pct_change_names t 1 hnd (hfresh_pct_of_nopat t hnop)]
  intro hmem
  rcases List.mem_append.mp hmem with hmem | hmem
  · exact hfm cn hcn hmem
  · rcases List.mem_map.mp hmem with ⟨cn', _, he⟩
    exact ne_of_strContainsRet (strContainsRet_pctName_one cn') (hnopm cn hcn) he

theorem momentum_df (t : WideTable) (p : Nat)
    (hnd : t.df.names.Nodup)
    (htc : t.time_col ∈ t.df.names)
    (hnop : ∀ n ∈ t.df.names, strContainsRet n = false)
    (hfm : ∀ cn ∈ t.stockCols, (cn ++ "_momentum_" ++ toString p) ∉ t.df.names)
    (hnopm : ∀ cn ∈ t.stockCols, strContainsRet (cn ++ "_momentum_" ++ toString p) = false) :
    (t.momentum p).df
      = ⟨(t.pct_change 1).df.cols
          ++ t.stockCols.map (fun cn =>
              ⟨cn ++ "_momentum_" ++ toString p,
                rollingSumVals p 1 ((t.pct_change 1).df.colVals (pctName cn 1))⟩)⟩ := by
  have hfresh := hfresh_pct_of_nopat t hnop
  have hpres : ∀ rc ∈ t.stockCols.map (fun cn => pctName cn 1),
      (t.pct_change 1).df.hasCol rc = true := by
    intro rc hrc
    rcases List.mem_map.mp hrc with ⟨cn, hcn, rfl⟩
    rw [hasCol_iff_mem_names, pct_change_names t 1 hnd hfresh]
    exact List.mem_append.mpr (Or.inr (List.mem_map.mpr ⟨cn, hcn, rfl⟩))
  have hfreshM : ∀ rc ∈ t.stockCols.map (fun cn => pctName cn 1),
      (t.pct_change 1).df.hasCol (momName rc p) = false := by
    intro rc hrc
    rcases List.mem_map.mp hrc with ⟨cn, hcn, rfl⟩
    rw [momName_pctName_one (hnop cn (mem_stockCols hcn).1) p]
    apply Bool.eq_false_iff.mpr
    intro hc
    exact momentum_mom_not_mem hnd hnop hfm hnopm hcn (hasCol_iff_mem_names.mp hc)
  have hnodupM : (t.stockCols.map (fun cn => pctName cn 1)).Nodup :=
    (stockCols_nodup hnd).map (fun a b h => pctName_inj h)
  have hinjM : ∀ rc₁ ∈ t.stockCols.map (fun cn => pctName cn 1),
      ∀ rc₂ ∈ t.stockCols.map (fun cn => pctName cn 1),
      momName rc₁ p = momName rc₂ p → rc₁ = rc₂ := by
    intro rc₁ h₁ rc₂ h₂ h
    rcases List.mem_map.mp h₁ with ⟨cn₁, hcn₁, rfl⟩
    rcases List.mem_map.mp h₂ with ⟨cn₂, hcn₂, rfl⟩
    rw [momName_stock_inj hnop hcn₁ hcn₂ h]
  have hfold := foldl_withColumn (fun rc => momName rc p) (rollingSumVals p 1)
    (t.stockCols.map (fun cn => pctName cn 1)) (t.pct_change 1).df
    hpres hfreshM hnodupM hinjM
  show (((t.pct_change 1).df.sortByCol t.time_col).names.filter
      (fun n => n != t.time_col && strContainsRet n)).foldl
      (fun acc rc => acc.withColumn ⟨momName rc p, rollingSumVals p 1 (acc.colVals rc)⟩)
      ((t.pct_change 1).df.sortByCol t.time_col) = _
  rw [momentum_ret_cols t hnd htc hnop, momentum_resort t hnd htc hnop, hfold]
  congr 1
  rw [List.map_map]
  congr 1
  apply List.map_congr_left
  intro cn hcn
  simp only [Function.comp]
  rw [momName_pctName_one (hnop cn (mem_stockCols hcn).1) p]

theorem momentum_time_col (t : WideTable) (p : Nat) :
    (t.momentum p).time_col = t.time_col := rfl

theorem momentum_colVals_mom (t : WideTable) (p : Nat)
    (hnd : t.df.names.Nodup)
    (htc : t.time_col ∈ t.df.names)
    (hnop : ∀ n ∈ t.df.names, strContainsRet n = false)
    (hfm : ∀ cn ∈ t.stockCols, (cn ++ "_momentum_" ++ toString p) ∉ t.df.names)
    (hnopm : ∀ cn ∈ t.stockCols, strContainsRet (cn ++ "_momentum_" ++ toString p) = false)
    {cn : String} (hcn : cn ∈ t.stockCols) :
    (t.momentum p).df.colVals (cn ++ "_momentum_" ++ toString p)
      = rollingSumVals p 1 ((t.pct_change 1).df.colVals (pctName cn 1)) := by
  rw [momentum_df t p hnd htc hnop hfm hnopm]
  have hnot : (DataFrame.mk (t.pct_change 1).df.cols).hasCol
      (cn ++ "_momentum_" ++ toString p) = false := by
    apply Bool.eq_false_iff.mpr
    intro hc
    rw [mk_cols_eta] at hc
    exact momentum_mom_not_mem hnd hnop hfm hnopm hcn (hasCol_iff_mem_names.mp hc)
  rw [colVals_mk_append_right hnot]
  exact colVals_mk_map_derived
    (fun cn => rollingSumVals p 1 ((t.pct_change 1).df.colVals (pctName cn 1)))
    (fun cn => cn ++ "_momentum_" ++ toString p) t.stockCols cn hcn
    (stockCols_nodup hnd)
    (fun cn₁ _ cn₂ _ h => string_append_cancel (string_append_cancel h))

theorem momentum_names (t : WideTable) (p : Nat)
    (hnd : t.df.names.Nodup)
    (htc : t.time_col ∈ t.df.names)
    (hnop : ∀ n ∈ t.df.names, strContainsRet n = false)
    (hfm : ∀ cn ∈ t.stockCols, (cn ++ "_momentum_" ++ toString p) ∉ t.df.names)
    (hnopm : ∀ cn ∈ t.stockCols, strContainsRet (cn ++ "_momentum_" ++ toString p) = false) :
    (t.momentum p).df.names
      = t.df.names ++ t.stockCols.map (fun cn => pctName cn 1)
          ++ t.stockCols.map (fun cn => cn ++ "_momentum_" ++ toString p) := by
  rw [momentum_df t p hnd htc hnop hfm hnopm, names_mk_append, mk_cols_eta,
    pct_change_names t 1 hnd (hfresh_pct_of_nopat t hnop)]
  congr 1
  simp [DataFrame.names, List.map_map, Function.comp]

theorem momentum_colVals_orig (t : WideTable) (p : Nat)
    (hnd : t.df.names.Nodup)
    (htc : t.time_col ∈ t.df.names)
    (hnop : ∀ n ∈ t.df.names, strContainsRet n = false)
    (hfm : ∀ cn ∈ t.stockCols, (cn ++ "_momentum_" ++ toString p) ∉ t.df.names)
    (hnopm : ∀ cn ∈ t.stockCols, strContainsRet (cn ++ "_momentum_" ++ toString p) = false)
    {cn : String} (hcn : cn ∈ t.df.names) :
    (t.momentum p).df.colVals cn = (t.df.sortByCol t.time_col).colVals cn := by
  rw [momentum_df t p hnd htc hnop hfm hnopm]
  have hhas : (DataFrame.mk (t.pct_change 1).df.cols).hasCol cn = true := by
    rw [mk_cols_eta, hasCol_iff_mem_names,
      pct_change_names t 1 hnd (hfresh_pct_of_nopat t hnop)]
    exact List.mem_append.mpr (Or.inl hcn)
  rw [colVals_mk_append_left hhas, mk_cols_eta]
  exact pct_change_colVals_orig t 1 hnd (hfresh_pct_of_nopat t hnop) hcn

theorem momentum_colVals_ret (t : WideTable) (p : Nat)
    (hnd : t.df.names.Nodup)
    (htc : t.time_col ∈ t.df.names)
    (hnop : ∀ n ∈ t.df.names, strContainsRet n = false)
    (hfm : ∀ cn ∈ t.stockCols, (cn ++ "_momentum_" ++ toString p) ∉ t.df.names)
    (hnopm : ∀ cn ∈ t.stockCols, strContainsRet (cn ++ "_momentum_" ++ toString p) = false)
    {cn : String} (hcn : cn ∈ t.stockCols) :
    (t.momentum p).df.colVals (pctName cn 1)
      = pctChangeVals 1 ((t.df.sortByCol t.time_col).colVals cn) := by
  rw [momentum_df t p hnd htc hnop hfm hnopm]
  have hhas : (DataFrame.mk (t.pct_change 1).df.cols).hasCol (pctName cn 1) = true := by
    rw [mk_cols_eta, hasCol_iff_mem_names,
      pct_change_names t 1 hnd (hfresh_pct_of_nopat t hnop)]
    exact List.mem_append.mpr (Or.inr (List.mem_map.mpr ⟨cn, hcn, rfl⟩))
  rw [colVals_mk_append_left hhas, mk_cols_eta]
  exact pct_change_colVals_derived t 1 hnd (hfresh_pct_of_nopat t hnop) hcn

theorem names_length (df : DataFrame) : df.names.length = df.cols.length :=
  List.length_map _ _

/-- A one-column panel holding only the (unsorted) time axis. -/
def timeOnlyDF : DataFrame := ⟨[⟨"date", [some 2, some 1, some 3]⟩]⟩

/-- The time-only panel as a wide table. -/
def timeOnlyTable : WideTable := ⟨timeOnlyDF, "date"⟩

/-! ### Claim theorems -/

/-- C3: `WideTable::new` fails with the schema error exactly when `time_key`
is absent from the table's columns, does nothing else on failure, and on
success stores the table and key verbatim, the accessor returning the given
key unchanged. -/
theorem claim_C3_construct (df : DataFrame) (tc : String) :
    (tc ∉ df.names →
      WideTable.new df tc = Except.error ("时间列 '" ++ tc ++ "' 不存在"))
    ∧ (tc ∈ df.names →
      WideTable.new df tc = Except.ok ⟨df, tc⟩
      ∧ (WideTable.mk df tc).time_col = tc ∧ (WideTable.mk df tc).df = df) := by
  constructor
  · intro h
    have hb : df.hasCol tc = false :=
      Bool.eq_false_iff.mpr (fun hc => h (hasCol_iff_mem_names.mp hc))
    simp [WideTable.new, hb]
  · intro h
    have hb : df.hasCol tc = true := hasCol_iff_mem_names.mpr h
    exact ⟨by simp [WideTable.new, hb], rfl, rfl⟩

theorem claim_C3_construct_witness :
    WideTable.new closeDF "date" = Except.ok ⟨closeDF, "date"⟩
    ∧ WideTable.new closeDF "time" = Except.error ("时间列 '" ++ "time" ++ "' 不存在") :=
  ⟨((claim_C3_construct closeDF "date").2 (by decide)).1,
    (claim_C3_construct closeDF "time").1 (by decide)⟩

/-- C10: construction validates nothing beyond the presence of the time
column; it succeeds even for a table whose only column is the time column,
and on such a panel `pct_change` succeeds with zero derived columns. -/
theorem claim_C10_no_validation :
    (∀ (df : DataFrame) (tc : String), tc ∈ df.names →
      WideTable.new df tc = Except.ok ⟨df, tc⟩)
    ∧ WideTable.new timeOnlyDF "date" = Except.ok timeOnlyTable
    ∧ timeOnlyTable.stockCols = []
    ∧ ∀ p : Nat, (timeOnlyTable.pct_change p).df.names = ["date"] := by
  refine ⟨?_, rfl, rfl, ?_⟩
  · intro df tc h
    simp [WideTable.new, hasCol_iff_mem_names.mpr h]
  · intro p
    rfl

theorem claim_C10_no_validation_witness :
    WideTable.new timeOnlyDF "date" = Except.ok ⟨timeOnlyDF, "date"⟩ :=
  claim_C10_no_validation.1 timeOnlyDF "date" (by decide)

/-- C1: on the time-sorted panel every non-time column `c` yields an appended
column `pctName c p` whose row `i` holds `(v i - v (i-p)) / v (i-p) * 100`
taken from `c`'s own values `p` positions earlier in the sorted order, and on
the concrete close series `[10.0, 10.2, 10.5, 10.3, 10.8]` one-period returns
are `[none, 2, 50/17, -40/21, 500/103]` (the exact values behind
`2.0, 2.941176…, -1.904762…, 4.854369…`). -/
theorem claim_C1_returns_formula :
    (∀ (t : WideTable) (p : Nat) (cn : String),
      t.df.names.Nodup →
      (∀ c ∈ t.stockCols, pctName c p ∉ t.df.names) →
      cn ∈ t.stockCols →
      (t.pct_change p).df.colVals (pctName cn p)
          = pctChangeVals p ((t.df.sortByCol t.time_col).colVals cn)
      ∧ ∀ (i : Nat) (a b : ℚ),
          p ≤ i → i < ((t.df.sortByCol t.time_col).colVals cn).length →
          ((t.df.sortByCol t.time_col).colVals cn).getD i none = some a →
          ((t.df.sortByCol t.time_col).colVals cn).getD (i - p) none = some b →
          ((t.pct_change p).df.colVals (pctName cn p)).getD i none
            = some ((a - b) / b * 100))
    ∧ (closeTable.pct_change 1).df.colVals "close_pct_change_1"
        = [none, some 2, some (50/17), some (-40/21), some (500/103)] := by
  constructor
  · intro t p cn hnd hfresh hcn
    have hmain := pct_change_colVals_derived t p hnd hfresh hcn
    refine ⟨hmain, ?_⟩
    intro i a b hpi hilen ha hb
    rw [hmain, getD_pctChangeVals p _ i hilen, ha, if_neg (Nat.not_lt.mpr hpi), hb]
    rfl
  · have h : (closeTable.pct_change 1).df.colVals "close_pct_change_1"
        = pctChangeVals 1 closeVals := rfl
    rw [h]
    norm_num [pctChangeVals, closeVals, shiftList, pctOp, optSub, optDiv, optMul]

theorem claim_C1_returns_formula_witness :
    ((closeTable.pct_change 1).df.colVals (pctName "close" 1)).getD 1 none
      = some ((51/5 - 10) / 10 * 100) :=
  (claim_C1_returns_formula.1 closeTable 1 "close" (by decide) (by decide) (by decide)).2
    1 (51/5) 10 (by decide) (by decide) rfl rfl

/-- C2: for `p ≥ 1` the derived column of each asset column has exactly the
first `p` rows null, all later rows defined when the column's values are
defined with nonzero divisors, and exactly one derived column is appended per
non-time column. -/
theorem claim_C2_returns_shape :
    ∀ (t : WideTable) (p : Nat),
      1 ≤ p →
      t.df.names.Nodup →
      (∀ c ∈ t.stockCols, pctName c p ∉ t.df.names) →
      ((t.pct_change p).df.names
          = t.df.names
            ++ (t.df.names.filter (fun n => n != t.time_col)).map (fun cn => pctName cn p)
        ∧ (t.pct_change p).df.cols.length
          = t.df.cols.length + (t.df.names.filter (fun n => n != t.time_col)).length)
      ∧ ∀ cn ∈ t.stockCols,
          (∀ i, i < p → ((t.pct_change p).df.colVals (pctName cn p)).getD i none = none)
          ∧ ((∀ v ∈ (t.df.sortByCol t.time_col).colVals cn, v.isSome = true ∧ v ≠ some 0) →
              ∀ i, p ≤ i → i < ((t.df.sortByCol t.time_col).colVals cn).length →
                (((t.pct_change p).df.colVals (pctName cn p)).getD i none).isSome = true) := by
  intro t p _ hnd hfresh
  have hn := pct_change_names t p hnd hfresh
  rw [stockCols_eq] at hn
  constructor
  · refine ⟨hn, ?_⟩
    have hl := congrArg List.length hn
    rw [List.length_append, names_length, names_length, List.length_map] at hl
    exact hl
  · intro cn hcn
    have hd := pct_change_colVals_derived t p hnd hfresh hcn
    constructor
    · intro i hip
      rw [hd]
      by_cases hlen : i < ((t.df.sortByCol t.time_col).colVals cn).length
      · rw [getD_pctChangeVals p _ i hlen, if_pos hip, pctOp_none_right]
      · apply List.getD_eq_default
        rw [length_pctChangeVals]
        omega
    · intro hvals i hpi hilen
      have hsub : i - p < ((t.df.sortByCol t.time_col).colVals cn).length :=
        lt_of_le_of_lt (Nat.sub_le i p) hilen
      have hmi : ((t.df.sortByCol t.time_col).colVals cn).getD i none
          ∈ (t.df.sortByCol t.time_col).colVals cn := by
        rw [List.getD_eq_getElem _ _ hilen]
        exact List.getElem_mem _
      have hmj : ((t.df.sortByCol t.time_col).colVals cn).getD (i - p) none
          ∈ (t.df.sortByCol t.time_col).colVals cn := by
        rw [List.getD_eq_getElem _ _ hsub]
        exact List.getElem_mem _
      rcases Option.isSome_iff_exists.mp (hvals _ hmi).1 with ⟨a, ha⟩
      rcases Option.isSome_iff_exists.mp (hvals _ hmj).1 with ⟨b, hb⟩
      rw [hd, getD_pctChangeVals p _ i hilen, ha, if_neg (Nat.not_lt.mpr hpi), hb]
      rfl

theorem claim_C2_returns_shape_witness :
    ((closeTable.pct_change 1).df.colVals (pctName "close" 1)).getD 0 none = none :=
  ((claim_C2_returns_shape closeTable 1 (by decide) (by decide) (by decide)).2
    "close" (by decide)).1 0 (by decide)

/-- C4: `momentum` first computes the one-period returns, keeps them, and for
each return column emits the trailing (right-aligned) rolling sum over `p`
rows with minimum one observation: at row `i` the window is rows
`i+1-p .. i`, nulls are skipped, and a sum over the values actually present
is emitted whenever at least one is present. -/
theorem claim_C4_momentum_pipeline :
    ∀ (t : WideTable) (p : Nat),
      t.df.names.Nodup →
      t.time_col ∈ t.df.names →
      (∀ n ∈ t.df.names, strContainsRet n = false) →
      (∀ cn ∈ t.stockCols, (cn ++ "_momentum_" ++ toString p) ∉ t.df.names) →
      (∀ cn ∈ t.stockCols, strContainsRet (cn ++ "_momentum_" ++ toString p) = false) →
      ∀ cn ∈ t.stockCols,
        (t.momentum p).df.colVals (cn ++ "_momentum_" ++ toString p)
            = rollingSumVals p 1 ((t.pct_change 1).df.colVals (pctName cn 1))
        ∧ (t.momentum p).df.colVals (pctName cn 1)
            = (t.pct_change 1).df.colVals (pctName cn 1)
        ∧ ∀ i, i < ((t.pct_change 1).df.colVals (pctName cn 1)).length →
            ((t.momentum p).df.colVals (cn ++ "_momentum_" ++ toString p)).getD i none
              = (if 1 ≤ (((((t.pct_change 1).df.colVals (pctName cn 1)).take (i + 1)).drop
                      (i + 1 - p)).filterMap id).length
                  then some ((((((t.pct_change 1).df.colVals (pctName cn 1)).take (i + 1)).drop
                      (i + 1 - p)).filterMap id).sum)
                  else none) := by
  intro t p hnd htc hnop hfm hnopm cn hcn
  have h1 := momentum_colVals_mom t p hnd htc hnop hfm hnopm hcn
  have h2 := momentum_colVals_ret t p hnd htc hnop hfm hnopm hcn
  have h3 := pct_change_colVals_derived t 1 hnd (hfresh_pct_of_nopat t hnop) hcn
  refine ⟨h1, h2.trans h3.symm, ?_⟩
  intro i hi
  rw [h1, getD_rollingSumVals p 1 _ i hi]

theorem claim_C4_momentum_pipeline_witness :
    (closeTable.momentum 3).df.colVals ("close" ++ "_momentum_" ++ toString 3)
      = rollingSumVals 3 1 ((closeTable.pct_change 1).df.colVals (pctName "close" 1)) :=
  (claim_C4_momentum_pipeline closeTable 3 (by decide) (by decide) (by decide)
    (by decide) (by decide) "close" (by decide)).1

/-- C5: the momentum columns of `momentum(table, 1)` coincide row by row with
the one-period return columns of `returns(table, 1)`: a trailing rolling sum
over a window of one row is the identity. -/
theorem claim_C5_momentum_window_one :
    ∀ (t : WideTable),
      t.df.names.Nodup →
      t.time_col ∈ t.df.names →
      (∀ n ∈ t.df.names, strContainsRet n = false) →
      (∀ cn ∈ t.stockCols, (cn ++ "_momentum_" ++ toString 1) ∉ t.df.names) →
      (∀ cn ∈ t.stockCols, strContainsRet (cn ++ "_momentum_" ++ toString 1) = false) →
      ∀ cn ∈ t.stockCols,
        (t.momentum 1).df.colVals (cn ++ "_momentum_" ++ toString 1)
          = (t.pct_change 1).df.colVals (pctName cn 1) := by
  intro t hnd htc hnop hfm hnopm cn hcn
  rw [momentum_colVals_mom t 1 hnd htc hnop hfm hnopm hcn, rollingSumVals_one_one]

theorem claim_C5_momentum_window_one_witness :
    (closeTable.momentum 1).df.colVals ("close" ++ "_momentum_" ++ toString 1)
      = (closeTable.pct_change 1).df.colVals (pctName "close" 1) :=
  claim_C5_momentum_window_one closeTable (by decide) (by decide) (by decide)
    (by decide) (by decide) "close" (by decide)

/-- A panel whose third column already bears the derived name
`a_pct_change_1`; `with_columns` then overwrites it in place. -/
def collideDF : DataFrame :=
  ⟨[⟨"date", [some 1, some 2]⟩, ⟨"a", [some 1, some 2]⟩,
    ⟨"a_pct_change_1", [some 5, some 5]⟩]⟩

/-- The colliding panel as a wide table. -/
def collideTable : WideTable := ⟨collideDF, "date"⟩

/-- C6 counterexample: on a panel with a column already named
`a_pct_change_1`, `pct_change(1)` overwrites that original column in place,
so the transform is not append-only for every panel. -/
theorem claim_C6_counterexample :
    (collideTable.pct_change 1).df.colVals "a_pct_change_1"
      ≠ (collideTable.df.sortByCol collideTable.time_col).colVals "a_pct_change_1" := by
  have hl : (collideTable.pct_change 1).df.colVals "a_pct_change_1"
      = pctChangeVals 1 [some 1, some 2] := rfl
  have hr : (collideTable.df.sortByCol collideTable.time_col).colVals "a_pct_change_1"
      = [some 5, some 5] := rfl
  rw [hl, hr]
  intro hcontra
  have h0 := congrArg (fun l => l.getD 0 none) hcontra
  simp [pctChangeVals, shiftList, pctOp, optSub, optDiv, optMul] at h0

/-- C6 amended: append-only holds for panels whose original column names are
disjoint from the derived names (no original column named `pctName c p`, and
for `momentum` additionally no original name containing `_pct_change_1` nor
named `{c}_momentum_{p}`): originals keep their (sorted) values, derived
columns are appended in the enumeration order of the original columns, and
the time column is unchanged. -/
theorem claim_C6_append_only :
    ∀ (t : WideTable) (p : Nat),
      t.df.names.Nodup →
      (∀ cn ∈ t.stockCols, pctName cn p ∉ t.df.names) →
      ((t.pct_change p).df.names
          = t.df.names ++ t.stockCols.map (fun cn => pctName cn p)
        ∧ (∀ cn ∈ t.df.names,
            (t.pct_change p).df.colVals cn = (t.df.sortByCol t.time_col).colVals cn)
        ∧ (t.pct_change p).time_col = t.time_col)
      ∧ (t.time_col ∈ t.df.names →
          (∀ n ∈ t.df.names, strContainsRet n = false) →
          (∀ cn ∈ t.stockCols, (cn ++ "_momentum_" ++ toString p) ∉ t.df.names) →
          (∀ cn ∈ t.stockCols, strContainsRet (cn ++ "_momentum_" ++ toString p) = false) →
          (t.momentum p).df.names
              = t.df.names ++ t.stockCols.map (fun cn => pctName cn 1)
                ++ t.stockCols.map (fun cn => cn ++ "_momentum_" ++ toString p)
            ∧ (∀ cn ∈ t.df.names,
                (t.momentum p).df.colVals cn = (t.df.sortByCol t.time_col).colVals cn)
            ∧ (t.momentum p).time_col = t.time_col) := by
  intro t p hnd hfresh
  constructor
  · exact ⟨pct_change_names t p hnd hfresh,
      fun cn hcn => pct_change_colVals_orig t p hnd hfresh hcn,
      pct_change_time_col t p⟩
  · intro htc hnop hfm hnopm
    exact ⟨momentum_names t p hnd htc hnop hfm hnopm,
      fun cn hcn => momentum_colVals_orig t p hnd htc hnop hfm hnopm hcn,
      momentum_time_col t p⟩

theorem claim_C6_append_only_witness :
    (closeTable.pct_change 1).df.colVals "close"
      = (closeTable.df.sortByCol closeTable.time_col).colVals "close" :=
  (claim_C6_append_only closeTable 1 (by decide) (by decide)).1.2.1 "close" (by decide)

/-- A panel whose asset column is itself named `x_pct_change_1`. -/
def trickDF : DataFrame :=
  ⟨[⟨"date", [some 1, some 2]⟩, ⟨"x_pct_change_1", [some 1, some 2]⟩]⟩

/-- The trick panel as a wide table. -/
def trickTable : WideTable := ⟨trickDF, "date"⟩

/-- C8 counterexample: `momentum` matches by substring containment and strips
every occurrence with `replace`, so on a panel whose asset column is named
`x_pct_change_1` the original asset column is matched too, and the column
whose suffix-stripped base would be `x_pct_change_1` never appears —
refuting both the exactly-the-derived-columns and the suffix-stripping
reading. -/
theorem claim_C8_counterexample :
    (trickTable.momentum 2).df.hasCol "x_pct_change_1_momentum_2" = false
    ∧ (trickTable.momentum 2).df.hasCol "x_momentum_2" = true := by
  exact ⟨rfl, rfl⟩

/-- C8 amended: the columns that receive a momentum column are exactly the
non-time columns whose names contain the substring `_pct_change_1`, and the
base is the name with every occurrence of the substring removed (Rust
`replace`); when no original column name contains the substring, these are
exactly the derived one-period-return columns and the momentum column of
asset `c` is `{c}_momentum_{p}`. -/
theorem claim_C8_matching :
    ∀ (t : WideTable) (p : Nat),
      t.df.names.Nodup →
      t.time_col ∈ t.df.names →
      (∀ n ∈ t.df.names, strContainsRet n = false) →
      (∀ cn ∈ t.stockCols, (cn ++ "_momentum_" ++ toString p) ∉ t.df.names) →
      (∀ cn ∈ t.stockCols, strContainsRet (cn ++ "_momentum_" ++ toString p) = false) →
      ((t.pct_change 1).df.sortByCol t.time_col).names.filter
          (fun n => n != t.time_col && strContainsRet n)
        = t.stockCols.map (fun cn => pctName cn 1)
      ∧ (∀ cn ∈ t.stockCols,
          momName (pctName cn 1) p = cn ++ "_momentum_" ++ toString p
          ∧ (t.momentum p).df.hasCol (cn ++ "_momentum_" ++ toString p) = true)
      ∧ (∀ n ∈ t.df.names, n ≠ t.time_col → strContainsRet n = false →
          (fun m => m != t.time_col && strContainsRet m) n = false) := by
  intro t p hnd htc hnop hfm hnopm
  refine ⟨momentum_ret_cols t hnd htc hnop, ?_, ?_⟩
  · intro cn hcn
    refine ⟨momName_pctName_one (hnop cn (mem_stockCols hcn).1) p, ?_⟩
    rw [hasCol_iff_mem_names, momentum_names t p hnd htc hnop hfm hnopm]
    exact List.mem_append.mpr (Or.inr (List.mem_map.mpr ⟨cn, hcn, rfl⟩))
  · intro n _ _ hc
    simp [hc]

theorem claim_C8_matching_witness :
    momName (pctName "close" 1) 2 = "close" ++ "_momentum_" ++ toString 2
    ∧ (closeTable.momentum 2).df.hasCol ("close" ++ "_momentum_" ++ toString 2) = true :=
  ((claim_C8_matching closeTable 2 (by decide) (by decide) (by decide)
    (by decide) (by decide)).2.1 "close" (by decide))

end QuantFactor
